import Mathlib

/-!
Verification of the plojo stenography engine's core translation components.

Rust strings are modelled as `List Char` (`Str`); byte indices are modelled
explicitly as sums of UTF-8 sizes, so that Rust's byte-indexed slicing,
`rfind`, and `char_indices` can be embedded faithfully.  Operations that can
panic in Rust (slicing at a non-boundary byte index, `String::remove`,
`unwrap`, failed `assert!`) are embedded as `Option`-returning functions where
`none` marks the panic.

Rust's case mappings and character classes are modelled by the fragment of
Unicode the repository exercises: exact on ASCII, plus the multi-character
expansion `'ß'.to_uppercase() == "SS"` exhibited by the repository's own
formatter test; characters outside the fragment are left unchanged.
-/

namespace Plojo

/-- Model of a Rust `String` / `&str`: the list of its characters. -/
abbrev Str := List Char

/-- Byte length of a string (`str::len` in Rust): sum of UTF-8 sizes. -/
def byteLen (s : Str) : Nat := (s.map Char.utf8Size).sum

/-- Model of Rust `char::to_uppercase`, which yields a *string* of characters:
maps `a`..`z` to `A`..`Z`, expands `'ß'` (U+00DF) to `"SS"` (the full Unicode
special-casing the repository's own test exercises), and leaves every other
character unchanged. -/
def rustCharToUppercase (c : Char) : Str :=
  if 97 ≤ c.toNat ∧ c.toNat ≤ 122 then [Char.ofNat (c.toNat - 32)]
  else if c.toNat = 223 then ['S', 'S']
  else [c]

/-- Model of Rust `char::to_lowercase` on the modelled fragment, where every
lowercase mapping is a single character: maps `A`..`Z` to `a`..`z`, leaves
every other character (including `'ß'`, its own lowercase) unchanged. -/
def rustCharToLower (c : Char) : Char :=
  if 65 ≤ c.toNat ∧ c.toNat ≤ 90 then Char.ofNat (c.toNat + 32) else c

/-- Model of Rust `str::to_uppercase`: characterwise full uppercasing, which
can grow the string (`"ß"` becomes `"SS"`). -/
def rustToUppercase (s : Str) : Str := s.flatMap rustCharToUppercase

/-- Model of Rust `str::to_lowercase` (characterwise on the fragment). -/
def rustToLowercase (s : Str) : Str := s.map rustCharToLower

/-- ASCII digit test, as used by Rust's `[0-9]` regex character class. -/
def isDigitChar (c : Char) : Bool := 48 ≤ c.toNat ∧ c.toNat ≤ 57

/-- Model of Rust `char::is_alphabetic` on the modelled fragment: the ASCII
letters together with `'ß'` (U+00DF), the one non-ASCII letter the
repository's tests exercise. -/
def rustIsAlphabetic (c : Char) : Bool :=
  (65 ≤ c.toNat ∧ c.toNat ≤ 90) ∨ (97 ≤ c.toNat ∧ c.toNat ≤ 122) ∨ c.toNat = 223

/-- Model of Rust `char::is_alphanumeric` (ASCII fragment). -/
def rustIsAlphanumeric (c : Char) : Bool := rustIsAlphabetic c || isDigitChar c

/-- Model of Rust `char::is_whitespace` (ASCII fragment). -/
def rustIsWhitespace (c : Char) : Bool :=
  c = ' ' ∨ c = '\t' ∨ c = '\n' ∨ c.toNat = 13

/-- `NUMBERS_ONLY_REGEX` of `diff/parser.rs`: `^[0-9]+$`. -/
def numbersOnlyMatch (s : Str) : Bool := !s.isEmpty && s.all isDigitChar

/-- `NUMBER_TRANSLATION_REGEX` of `diff/parser.rs`: `^[0-9\-]+$`. -/
def numberTranslationMatch (s : Str) : Bool :=
  !s.isEmpty && s.all (fun c => isDigitChar c || c = '-')

/-- Model of Rust `str::rfind`: the byte index of the last character
satisfying `p`, or `none`. -/
def rfindByte (p : Char → Bool) : Str → Option Nat
  | [] => none
  | c :: rest =>
    match rfindByte p rest with
    | some i => some (c.utf8Size + i)
    | none => if p c then some 0 else none

/-- Model of Rust `str::char_indices` starting at byte offset `off`. -/
def charIndicesFrom (off : Nat) : Str → List (Nat × Char)
  | [] => []
  | c :: rest => (off, c) :: charIndicesFrom (off + c.utf8Size) rest

/-- Model of Rust `str::char_indices`. -/
def charIndices (s : Str) : List (Nat × Char) := charIndicesFrom 0 s

/-- The character position corresponding to byte index `i`, when `i` is a
character boundary of `s`; `none` when it is not (a Rust slice at such an
index panics). -/
def boundaryPos : Str → Nat → Option Nat
  | _, 0 => some 0
  | [], _ + 1 => none
  | c :: rest, i + 1 =>
    if i + 1 < c.utf8Size then none
    else (boundaryPos rest (i + 1 - c.utf8Size)).map (· + 1)

/-- Model of the Rust slice `&s[i..]`; `none` models the boundary panic. -/
def sliceFrom (s : Str) (i : Nat) : Option Str :=
  (boundaryPos s i).map (fun k => s.drop k)

/-- Model of the Rust slice `&s[..i]`; `none` models the boundary panic. -/
def sliceTo (s : Str) (i : Nat) : Option Str :=
  (boundaryPos s i).map (fun k => s.take k)

/-- Model of Rust `str::get(i..j)`: `some` exactly when both byte indices are
character boundaries and `i ≤ j`. -/
def getByteRange (s : Str) (i j : Nat) : Option Str :=
  match boundaryPos s i, boundaryPos s j with
  | some p, some q => if p ≤ q then some ((s.take q).drop p) else none
  | _, _ => none

/-- Model of Rust `String::remove(i)` (the removed character is discarded);
`none` models the panic on a non-boundary or out-of-range index. -/
def removeByte (s : Str) (i : Nat) : Option Str :=
  match boundaryPos s i with
  | some k => if k < s.length then some (s.take k ++ s.drop (k + 1)) else none
  | none => none

/-- A steno stroke, identified by its canonical string form (`Stroke::to_raw`).
The normalization performed by `Stroke::new` lives in `plojo_core/src/stroke.rs`,
which is not part of the sources under verification; per the spec (§3) strokes
compare by canonical string, so the canonical string is the whole model. -/
abbrev Stroke := Str

/-- `plojo_core/src/commands.rs`: `SpecialKey`. -/
inductive SpecialKey where
  | Backspace | CapsLock | Delete | DownArrow | End | Escape
  | F1 | F10 | F11 | F12 | F2 | F3 | F4 | F5 | F6 | F7 | F8 | F9
  | Home | LeftArrow | PageDown | PageUp | Return | RightArrow
  | Space | Tab | UpArrow
deriving DecidableEq

/-- `plojo_core/src/commands.rs`: `Key`. -/
inductive Key where
  | Special (k : SpecialKey)
  | Layout (c : Char)
deriving DecidableEq

/-- `plojo_core/src/commands.rs`: `Modifier`. -/
inductive Modifier where
  | Alt | Control | Meta | Opt | Shift
deriving DecidableEq

/-- `plojo_core/src/commands.rs`: `Command` (`Raw`'s `u16` payload is carried
as a `Nat`; it is never computed with). -/
inductive Command where
  | Replace (backspaces : Nat) (text : Str)
  | PrintHello
  | NoOp
  | Keys (key : Key) (mods : List Modifier)
  | Raw (code : Nat)
deriving DecidableEq

/-- `plojo_translator/src/lib.rs`: `AttachedType`. -/
inductive AttachedType where
  | ApplyOrthography
  | AttachOnly
  | DoNotAttach
deriving DecidableEq

/-- `plojo_translator/src/lib.rs`: `StateAction`. -/
inductive StateAction where
  | ForceCapitalize
  | SameCase (b : Bool)
  | Clear
deriving DecidableEq

/-- `plojo_translator/src/lib.rs`: `TextAction`. -/
inductive TextAction where
  | CapitalizePrev
  | SuppressSpacePrev
  | SameCasePrev (b : Bool)
deriving DecidableEq

/-- `plojo_translator/src/lib.rs`: `Text`. -/
inductive Text where
  | Lit (s : Str)
  | UnknownStroke (s : Stroke)
  | Attached (text : Str) (joined_next : Bool) (joined_prev : AttachedType)
      (carry_capitalization : Bool)
  | Glued (s : Str)
  | StateAction (a : StateAction)
  | TextAction (a : TextAction)
deriving DecidableEq

/-- `plojo_translator/src/lib.rs`: `Translation`. -/
inductive Translation where
  | Text (ts : List Plojo.Text)
  | Command (cmds : List Plojo.Command) (text_after : Option (List Plojo.Text))
      (suppress_space_before : Bool)
deriving DecidableEq

/-- `plojo_translator/src/lib.rs`: `Translation::as_text`. -/
def Translation.as_text : Translation → List Plojo.Text
  | .Text ts => ts
  | .Command _ text_after _ => text_after.getD []

/-- The loop body of `is_text` over a `Vec<Text>` (`plojo_translator/src/lib.rs`
lines 114-128): true iff at least one element is non-empty text. -/
def anyNonEmptyText : List Text → Bool
  | [] => false
  | .UnknownStroke _ :: _ => true
  | .Attached text _ _ _ :: rest => if text.isEmpty then anyNonEmptyText rest else true
  | .Glued text :: rest => if text.isEmpty then anyNonEmptyText rest else true
  | .Lit text :: rest => if text.isEmpty then anyNonEmptyText rest else true
  | .StateAction _ :: rest => anyNonEmptyText rest
  | .TextAction _ :: rest => anyNonEmptyText rest

/-- `plojo_translator/src/lib.rs`: `is_text`.  (The source's `Command` branch
recurses through `is_text(Translation::Text(text_after))`, which is exactly
`anyNonEmptyText text_after`.) -/
def is_text : Translation → Bool
  | .Command _ (some text_after) _ => anyNonEmptyText text_after
  | .Command _ none _ => false
  | .Text texts => anyNonEmptyText texts

/-- `diff/parser.rs`: the formatter `State` (all fields default to
false/`none`, as `#[derive(Default)]` does). -/
structure State where
  suppress_space : Bool := false
  force_capitalize : Bool := false
  prev_is_glued : Bool := false
  force_same_case : Option Bool := none
deriving DecidableEq

/-- `diff/parser.rs`: `word_change_first_letter`:
`c.to_uppercase().collect::<String>() + chars.as_str()` — the uppercased
first character may be several characters (`'ß'` gives `"SS"`). -/
def word_change_first_letter : Str → Str
  | [] => []
  | c :: rest => rustCharToUppercase c ++ rest

/-- `diff/parser.rs`: `find_last_word_space`. -/
def find_last_word_space (text : Str) : Nat :=
  match rfindByte rustIsWhitespace text with
  | some i => i + 1
  | none => 0

/-- Characters counted as part of a word (`WORD_CHARS` in `diff/parser.rs`). -/
def wordChars : List Char := ['-', '_']

/-- `diff/parser.rs`: `find_last_word`.  The `unwrap` of
`text[i..].chars().next()` and the byte slicing are modelled in `Option`. -/
def find_last_word (text : Str) : Option Nat :=
  match rfindByte (fun c => !(rustIsAlphanumeric c || wordChars.contains c)) text with
  | some i => do
    let suf ← sliceFrom text i
    let c ← suf.head?
    pure (i + c.utf8Size)
  | none => pure 0

/-- `diff/parser.rs`: `perform_text_action`. -/
def perform_text_action (text : Str) : TextAction → Option Str
  | .SuppressSpacePrev =>
    let index := find_last_word_space text
    if index > 0 ∧ getByteRange text (index - 1) index = some [' '] then
      removeByte text (index - 1)
    else
      pure text
  | .CapitalizePrev => do
    let index ← find_last_word text
    let word ← sliceFrom text index
    let pre ← sliceTo text index
    pure (pre ++ word_change_first_letter word)
  | .SameCasePrev b => do
    let index ← find_last_word text
    let word ← sliceFrom text index
    let pre ← sliceTo text index
    pure (pre ++ (if b then rustToUppercase word else rustToLowercase word))

/-- The common tail of the `parse_translation` loop body (`diff/parser.rs`
lines 153-170): prepend a space unless suppressed, capitalize / case-transform
the word per the (possibly branch-mutated) current state `s1`, append it, and
switch to `ns`. -/
def emitWord (s1 ns : State) (w str : Str) : Str × State :=
  let str := if s1.suppress_space then str else str ++ [' ']
  let w := if s1.force_capitalize then word_change_first_letter w else w
  let w :=
    match s1.force_same_case with
    | some b => if b then rustToUppercase w else rustToLowercase w
    | none => w
  (str ++ w, ns)

/-- The `ApplyOrthography` block of `diff/parser.rs` (lines 93-121): locate
the last non-alphabetic character by byte index (`rfind`), find its size via
`char_indices` (`assert!(char_size > 0)` is the `none` of the inner match
falling to `0`), and splice `apply_orthography` of the trailing word into the
buffer. -/
def applyOrthoStep (ortho : Str → Str → Str) (str text : Str) : Option Str := do
  let index ←
    match rfindByte (fun c => !rustIsAlphabetic c) str with
    | none => some 0
    | some i =>
      let char_size :=
        match (charIndices str).find? (fun x => x.1 = i) with
        | some x => x.2.utf8Size
        | none => 0
      if 0 < char_size then some (i + char_size) else none
  if index < byteLen str then do
    let suffix ← sliceFrom str index
    let pre ← sliceTo str index
    some (pre ++ ortho suffix text)
  else
    some (str ++ text)

/-- One iteration of the `parse_translation` loop of `diff/parser.rs`
(lines 36-171), for atom `t` with accumulated output `str` and state `state`.
`ortho` stands for `orthography::apply_orthography`, whose rule table is not
part of the sources under verification; every result below holds for an
arbitrary such function.  A `continue` in the source corresponds to returning
without passing through `emitWord`. -/
def formatStep (ortho : Str → Str → Str) (str : Str) (state : State) :
    Text → Option (Str × State)
  | .Lit text =>
    let glued := numbersOnlyMatch text
    let ns : State := { prev_is_glued := glued }
    let s1 := if glued ∧ state.prev_is_glued then
        { state with suppress_space := true } else state
    some (emitWord s1 ns text str)
  | .UnknownStroke stroke =>
    if numberTranslationMatch stroke then
      let w := stroke.filter (· ≠ '-')
      let ns : State := { prev_is_glued := true }
      let s1 := if state.prev_is_glued then
          { state with suppress_space := true } else state
      some (emitWord s1 ns w str)
    else
      some (emitWord state {} stroke str)
  | .Attached text joined_next joined_prev carry =>
    let ns : State := { suppress_space := joined_next }
    let ns := if carry then
        { ns with
          force_capitalize := state.force_capitalize
          force_same_case := state.force_same_case }
      else ns
    let s1 := if carry then { state with force_capitalize := false } else state
    if s1.suppress_space then
      some (emitWord s1 ns text str)
    else
      match joined_prev with
      | .DoNotAttach => some (emitWord s1 ns text str)
      | .AttachOnly => some (emitWord { s1 with suppress_space := true } ns text str)
      | .ApplyOrthography =>
        (applyOrthoStep ortho str text).map (fun str' => (str', ns))
  | .Glued text =>
    let ns : State := { prev_is_glued := true }
    let s1 := if state.prev_is_glued then
        { state with suppress_space := true } else state
    some (emitWord s1 ns text str)
  | .StateAction a =>
    some (str,
      match a with
      | .ForceCapitalize => { state with force_capitalize := true }
      | .SameCase b => { state with force_same_case := some b }
      | .Clear => {})
  | .TextAction a => (perform_text_action str a).map (fun str' => (str', state))

/-- The `for t in translations` loop of `parse_translation`. -/
def formatLoop (ortho : Str → Str → Str) :
    Str → State → List Text → Option (Str × State)
  | str, state, [] => some (str, state)
  | str, state, t :: rest => do
    let (str', state') ← formatStep ortho str state t
    formatLoop ortho str' state' rest

/-- The `space_after` post-pass of `parse_translation` (`diff/parser.rs`
lines 173-184): strip a leading space (`String::remove(0)`, modelled in
`Option`) and append a trailing space unless suppressed. -/
def spaceAfterPass (str : Str) (state : State) (space_after : Bool) :
    Option Str := do
  if space_after ∧ !str.isEmpty then do
    let str ←
      match str.head? with
      | some c => if c = ' ' then removeByte str 0 else pure str
      | none => pure str
    pure (if state.suppress_space then str else str ++ [' '])
  else
    pure str

/-- `diff/parser.rs`: `parse_translation` (loop plus the `space_after`
post-pass). -/
def parse_translation (ortho : Str → Str → Str) (translations : List Text)
    (space_after : Bool) : Option Str := do
  let (str, state) ← formatLoop ortho [] {} translations
  spaceAfterPass str state space_after

/-- Model of `plojo_translator`'s `Dictionary`: the underlying `HashMap` from
canonical key strings to translations, as a function (a `HashMap` with unique
keys is exactly a finitely-supported function; no claim needs finiteness). -/
def Dictionary := Str → Option Translation

/-- The `/`-joining of stroke strings done by `Dictionary::lookup`
(`plojo_translator/src/dictionary.rs` lines 29-37). -/
def joinSlash : List Str → Str
  | [] => []
  | [s] => s
  | s :: rest => s ++ '/' :: joinSlash rest

/-- `plojo_translator/src/dictionary.rs`: `Dictionary::lookup`. -/
def Dictionary.lookup (d : Dictionary) (strokes : List Stroke) : Option Translation :=
  d (joinSlash strokes)

/-- The descending `for end in (start..limit).rev()` probe of the greedy
lookup: try the prefix of length `k+1` first, then shorter ones; `some (k, t)`
means the prefix of length `k+1` is the longest match. -/
def probeLens (d : Dictionary) (strokes : List Stroke) : Nat → Option (Nat × Translation)
  | 0 => none
  | k + 1 =>
    match d.lookup (strokes.take (k + 1)) with
    | some t => some (k, t)
    | none => probeLens d strokes k

/-- Modelled from the spec: `plojo_translator`'s `translate::translate_strokes`
(the file `dictionary/translate.rs` is not among the sources under
verification).  Spec §4.3: greedy left-to-right walk, at each position probing
windows of up to `MAX = 15` strokes longest-first; a position with no match
emits `Text([UnknownStroke(s)])` and advances by one. -/
def dictTranslate (d : Dictionary) : List Stroke → List Translation
  | [] => []
  | s :: rest =>
    match probeLens d (s :: rest) (min 15 (rest.length + 1)) with
    | some (k, t) => t :: dictTranslate d (rest.drop k)
    | none => Translation.Text [Text.UnknownStroke s] :: dictTranslate d rest
termination_by l => l.length
decreasing_by
  · simp only [List.length_cons, List.length_drop]
    omega
  · simp only [List.length_cons]
    omega

/-- Length of the longest common prefix of two strings, by character. -/
def commonLen : Str → Str → Nat
  | a :: as_, b :: bs => if a = b then commonLen as_ bs + 1 else 0
  | _, _ => 0

/-- The rendering of a translation list: flatten to text atoms (`as_text`) and
format.  `parse_translation` is proved total (`parse_translation_isSome`
below), so the `[]` fallback is never taken. -/
def renderTranslations (ortho : Str → Str → Str) (ts : List Translation)
    (space_after : Bool) : Str :=
  (parse_translation ortho (ts.flatMap Translation.as_text) space_after).getD []

/-- Modelled from the spec: `diff::translation_diff` (the file `diff/mod.rs`
is not among the sources under verification).  Spec §4.5: render both sides,
compute the longest common prefix by character, and emit a single
`Replace(char_count(old) − common, tail_of_new)`, or `NoOp` when the renders
are equal. -/
def translation_diff (ortho : Str → Str → Str) (old_t new_t : List Translation)
    (space_after : Bool) : List Command :=
  let o := renderTranslations ortho old_t space_after
  let n := renderTranslations ortho new_t space_after
  if o = n then [Command.NoOp]
  else
    let k := commonLen o n
    [Command.Replace (o.length - k) (n.drop k)]

/-- `plojo_translator/src/lib.rs` line 99: `MAX_STROKE_BUFFER`. -/
def MAX_STROKE_BUFFER : Nat := 50

/-- `plojo_translator/src/lib.rs` line 101: `MAX_TRANSLATION_STROKE_LEN`. -/
def MAX_TRANSLATION_STROKE_LEN : Nat := 10

/-- `plojo_translator/src/lib.rs`: `StandardTranslator`.  `ortho` is passed
separately to the operations (see `formatStep`). -/
structure StandardTranslator where
  prev_strokes : List Stroke
  dict : Dictionary
  retrospective_add_space : List Stroke
  add_space_insert : Option Stroke
  space_after : Bool

/-- The retro-space index search of `translate` (`lib.rs` lines 182-190):
walk the reversed history, decrementing `index` before each test, and stop at
the first stroke whose single-stroke translation contains text. -/
def retroIndexGo (d : Dictionary) : List Stroke → Nat → Nat
  | [], idx => idx
  | s :: rest, idx =>
    if (dictTranslate d [s]).any is_text then idx - 1
    else retroIndexGo d rest (idx - 1)

/-- The index at which `translate` inserts the retro-space stroke. -/
def retroIndex (d : Dictionary) (ps : List Stroke) : Nat :=
  retroIndexGo d ps.reverse ps.length

/-- `plojo_translator/src/lib.rs` lines 166-203: `StandardTranslator::translate`.
Returns the emitted commands and the updated translator. -/
def translate (ortho : Str → Str → Str) (t : StandardTranslator) (stroke : Stroke) :
    List Command × StandardTranslator :=
  let ps := if t.prev_strokes.length > MAX_STROKE_BUFFER
    then t.prev_strokes.drop 1 else t.prev_strokes
  let start := if ps.length > MAX_TRANSLATION_STROKE_LEN
    then ps.length - MAX_TRANSLATION_STROKE_LEN else 0
  let old_translations := dictTranslate t.dict (ps.drop start)
  let ps' :=
    if t.retrospective_add_space.contains stroke then
      match t.add_space_insert with
      | some space => ps.insertIdx (retroIndex t.dict ps) space
      | none => ps
    else ps ++ [stroke]
  let new_translations := dictTranslate t.dict (ps'.drop start)
  (translation_diff ortho old_translations new_translations t.space_after,
    { t with prev_strokes := ps' })

/-- The `while !prev_strokes.is_empty()` loop of `undo` (`lib.rs` lines
209-216): pop, re-translate, diff against the original render, stop at the
first visible diff.  Returns the commands and the remaining history. -/
def undoLoop (ortho : Str → Str → Str) (d : Dictionary)
    (old_translations : List Translation) (space_after : Bool) :
    List Stroke → List Command × List Stroke
  | [] => ([Command.NoOp], [])
  | x :: xs =>
    let ps' := (x :: xs).dropLast
    let diff := translation_diff ortho old_translations (dictTranslate d ps') space_after
    if diff ≠ [Command.NoOp] then (diff, ps')
    else undoLoop ortho d old_translations space_after ps'
termination_by l => l.length
decreasing_by
  simp only [List.length_dropLast, List.length_cons]
  omega

/-- `plojo_translator/src/lib.rs` lines 205-219: `StandardTranslator::undo`. -/
def undo (ortho : Str → Str → Str) (t : StandardTranslator) :
    List Command × StandardTranslator :=
  let r := undoLoop ortho t.dict (dictTranslate t.dict t.prev_strokes)
    t.space_after t.prev_strokes
  (r.1, { t with prev_strokes := r.2 })

/-- The literal command string `"clear_prev_strokes"`. -/
def clearPrevStrokesCmd : Str := "clear_prev_strokes".toList

/-- The literal command string `"toggle_space_after"`. -/
def toggleSpaceAfterCmd : Str := "toggle_space_after".toList

/-- `plojo_translator/src/lib.rs` lines 226-242:
`StandardTranslator::handle_command`.  The wildcard arm only logs a warning,
which has no effect on the translator state. -/
def handle_command (t : StandardTranslator) (command : Str) : StandardTranslator :=
  if command = clearPrevStrokesCmd then
    { t with prev_strokes :=
        match t.prev_strokes.getLast? with
        | some last => [last]
        | none => [] }
  else if command = toggleSpaceAfterCmd then
    { t with space_after := !t.space_after }
  else t

/-- Folding `translate` over a stroke sequence (discarding the commands). -/
def applyStrokes (ortho : Str → Str → Str) (t : StandardTranslator) :
    List Stroke → StandardTranslator
  | [] => t
  | s :: rest => applyStrokes ortho (translate ortho t s).2 rest

namespace Lookup

/-- The `Translation` type of the repository's older `src/` crate, whose
defining file is not among the sources under verification; modelled from its
uses in `src/src/translator/lookup.rs` and its tests (`Text`, `Command`,
`UnknownStroke`).  The greedy algorithm never inspects the payloads. -/
inductive LTranslation where
  | Text (s : Str)
  | Command (c : Plojo.Command)
  | UnknownStroke (s : Stroke)
deriving DecidableEq

/-- The older crate's `Dictionary`, as the lookup function used by
`translate_strokes`: stroke slices to translation lists. -/
def LDict := List Stroke → Option (List LTranslation)

/-- The descending `for end in (start..add_max_limit_len(start)).rev()` loop of
`lookup.rs` (lines 34-42): probe the prefix of length `k+1` first.  -/
def lookupProbe (d : LDict) (strokes : List Stroke) : Nat → Option (Nat × List LTranslation)
  | 0 => none
  | k + 1 =>
    match d (strokes.take (k + 1)) with
    | some ts => some (k, ts)
    | none => lookupProbe d strokes k

/-- `src/src/translator/lookup.rs` lines 17-55: `translate_strokes`.
`MAX_TRANSLATION_STROKE_LEN = 15`; `add_max_limit_len start = min (start+15)
len`, so the probed window lengths are `min 15 (len − start) .. 1`. -/
def translate_strokes (d : LDict) : List Stroke → List LTranslation
  | [] => []
  | s :: rest =>
    match lookupProbe d (s :: rest) (min 15 (rest.length + 1)) with
    | some (k, ts) => ts ++ translate_strokes d (rest.drop k)
    | none => LTranslation.UnknownStroke s :: translate_strokes d rest
termination_by l => l.length
decreasing_by
  · simp only [List.length_cons, List.length_drop]
    omega
  · simp only [List.length_cons]
    omega

/-- `probeP d ss k`: the dictionary has an entry for the first `k` strokes. -/
def probeP (d : LDict) (ss : List Stroke) (k : Nat) : Prop :=
  (d (ss.take k)).isSome = true

instance (d : LDict) (ss : List Stroke) : DecidablePred (probeP d ss) :=
  fun _ => by unfold probeP; infer_instance

/-- Claim-side definition: the length of the longest dictionary match starting
at the head of `ss`, probing at most `min 15 ss.length` strokes (0 when no
prefix matches). -/
def bestLen (d : LDict) (ss : List Stroke) : Nat :=
  Nat.findGreatest (probeP d ss) (min 15 ss.length)

/-- Claim-side greedy lookup: scan left to right; at each position emit the
translation of the longest dictionary match starting there (at most 15
strokes) and advance past it; if no prefix matches, emit an `UnknownStroke`
for the single stroke and advance by one. -/
def greedySpec (d : LDict) : List Stroke → List LTranslation
  | [] => []
  | s :: rest =>
    if bestLen d (s :: rest) = 0 then
      LTranslation.UnknownStroke s :: greedySpec d rest
    else
      ((d ((s :: rest).take (bestLen d (s :: rest)))).getD []) ++
        greedySpec d ((s :: rest).drop (bestLen d (s :: rest)))
termination_by l => l.length
decreasing_by
  · simp only [List.length_cons]
    omega
  · rename_i h
    have h1 : 1 ≤ bestLen d (s :: rest) := Nat.one_le_iff_ne_zero.mpr h
    simp only [List.length_drop, List.length_cons]
    omega

end Lookup

/-! ### Concrete instances used by witnesses and counterexamples -/

/-- Plain concatenation: the behavior of `apply_orthography` when no rule
matches (spec §4.4); used to instantiate the `ortho` parameter concretely. -/
def orthoCat : Str → Str → Str := fun stem suf => stem ++ suf

/-- The empty dictionary. -/
def emptyDict : Dictionary := fun _ => none

/-- A translator whose history holds `n` copies of the stroke `"a"`. -/
def bufTrans (n : Nat) : StandardTranslator :=
  ⟨List.replicate n ['a'], emptyDict, [], none, false⟩

/-- A concrete translator for the C2 witness: one-stroke history `["H"]`,
empty dictionary (so `"H"` is textual as an `UnknownStroke`), retro-space
strokes `["r"]`, space stroke `" "`. -/
def retroTrans : StandardTranslator :=
  ⟨[['H']], emptyDict, [['r']], some [' '], false⟩

/-- A tiny concrete dictionary for the C4 witness: the single key `["h"]`. -/
def lookupDictW : Lookup.LDict := fun ks =>
  if ks = [['h']] then some [Lookup.LTranslation.Text ['h', 'i']] else none

/-- The pruning done at the top of `translate` (`lib.rs` lines 167-169). -/
def prunedStrokes (t : StandardTranslator) : List Stroke :=
  if t.prev_strokes.length > MAX_STROKE_BUFFER then t.prev_strokes.drop 1
  else t.prev_strokes

/-- Distance from the newest end of the history to the newest stroke whose
single-stroke translation is textual: `idxOfTextual d rev` scans the reversed
history and returns `some j` when the `j`-th-newest stroke is the first
textual one, `none` when no stroke is textual.  (Claim-side definition.) -/
def idxOfTextual (d : Dictionary) : List Stroke → Option Nat
  | [] => none
  | s :: rest =>
    if (dictTranslate d [s]).any is_text then some 0
    else (idxOfTextual d rest).map (· + 1)

/-- Claim-side definition of the retro-space insertion index: the position of
the newest textual stroke (so that inserting there places the space
immediately before it), or `0` when no stroke in the history is textual. -/
def newestTextualIdx (d : Dictionary) (ps : List Stroke) : Nat :=
  match idxOfTextual d ps.reverse with
  | some j => ps.length - 1 - j
  | none => 0

/-- A character counted as part of the "last word" by `find_last_word`:
alphanumeric or one of `WORD_CHARS` (exactly the predicate negated in the
`rfind` call of `find_last_word`). -/
def isWordChar (c : Char) : Bool := rustIsAlphanumeric c || wordChars.contains c

/-- Claim-side form of `undo` (C3): try the histories obtained by removing
1, 2, … strokes from the end; against each, diff the rendering of the original
full history; return the first diff that is not `[NoOp]` together with the
history at that point, and `([NoOp], [])` when the history empties without a
visible change. -/
def undoSpec (ortho : Str → Str → Str) (d : Dictionary)
    (old_translations : List Translation) (space_after : Bool)
    (ps : List Stroke) : List Command × List Stroke :=
  match (List.range ps.length).findSome? (fun j =>
      let hist := ps.take (ps.length - 1 - j)
      let diff := translation_diff ortho old_translations
        (dictTranslate d hist) space_after
      if diff ≠ [Command.NoOp] then some (diff, hist) else none) with
  | some r => r
  | none => ([Command.NoOp], [])

/-! ### Theorems -/

/-! #### History bound (C1) -/

theorem translate_prev_eq (ortho : Str → Str → Str) (t : StandardTranslator)
    (stroke : Stroke) :
    (translate ortho t stroke).2.prev_strokes =
      (if t.retrospective_add_space.contains stroke then
        match t.add_space_insert with
        | some space =>
          (prunedStrokes t).insertIdx (retroIndex t.dict (prunedStrokes t)) space
        | none => prunedStrokes t
      else prunedStrokes t ++ [stroke]) := rfl

theorem retroIndexGo_le (d : Dictionary) (l : List Stroke) (idx : Nat) :
    retroIndexGo d l idx ≤ idx := by
  induction l generalizing idx with
  | nil => simp [retroIndexGo]
  | cons s rest ih =>
    simp only [retroIndexGo]
    split
    · omega
    · exact le_trans (ih (idx - 1)) (by omega)

theorem retroIndex_le (d : Dictionary) (ps : List Stroke) :
    retroIndex d ps ≤ ps.length :=
  retroIndexGo_le d ps.reverse ps.length

theorem prunedStrokes_le (t : StandardTranslator)
    (h : t.prev_strokes.length ≤ MAX_STROKE_BUFFER + 1) :
    (prunedStrokes t).length ≤ MAX_STROKE_BUFFER := by
  unfold prunedStrokes
  split <;> simp_all

theorem translate_step_bound (ortho : Str → Str → Str) (t : StandardTranslator)
    (s : Stroke) (h : t.prev_strokes.length ≤ MAX_STROKE_BUFFER + 1) :
    (translate ortho t s).2.prev_strokes.length ≤ MAX_STROKE_BUFFER + 1 := by
  rw [translate_prev_eq]
  have hp := prunedStrokes_le t h
  split
  · split
    · rename_i sp _
      rw [List.length_insertIdx _ _ (retroIndex_le t.dict (prunedStrokes t))]
      omega
    · omega
  · simp only [List.length_append, List.length_cons, List.length_nil]
    omega

/-- C1 counterexample: a translator whose history holds exactly 50 strokes
(within the claimed bound) exceeds `prev_strokes.len() ≤ 50` after one
`translate` call — the pruning at the top of `translate` fires only when the
length already exceeds 50, and the new stroke is pushed afterwards, so the
history reaches 51. -/
theorem translate_overflows_fifty :
    (translate orthoCat (bufTrans 50) ['b']).2.prev_strokes.length = 51 ∧
      ¬ (translate orthoCat (bufTrans 50) ['b']).2.prev_strokes.length ≤ 50 := by
  have h : (translate orthoCat (bufTrans 50) ['b']).2.prev_strokes.length = 51 := by
    rw [translate_prev_eq]
    simp [bufTrans, prunedStrokes, MAX_STROKE_BUFFER]
  exact ⟨h, by omega⟩

/-- C1 (amended): the invariant maintained by `translate` is
`prev_strokes.len() ≤ MAX_STROKE_BUFFER + 1 = 51`, not `≤ 50`: for every
translator whose history initially holds at most 51 strokes (in particular at
most 50), after any sequence of `translate` calls the history holds at most
51 strokes. -/
theorem history_bound_fifty_one (ortho : Str → Str → Str)
    (t : StandardTranslator) (ss : List Stroke)
    (h : t.prev_strokes.length ≤ MAX_STROKE_BUFFER + 1) :
    (applyStrokes ortho t ss).prev_strokes.length ≤ MAX_STROKE_BUFFER + 1 := by
  induction ss generalizing t with
  | nil => exact h
  | cons s rest ih =>
    exact ih (translate ortho t s).2 (translate_step_bound ortho t s h)

theorem history_bound_fifty_one_witness :
    (bufTrans 50).prev_strokes.length ≤ MAX_STROKE_BUFFER + 1 ∧
      (applyStrokes orthoCat (bufTrans 50) [['b'], ['c']]).prev_strokes.length ≤
        MAX_STROKE_BUFFER + 1 :=
  ⟨by simp [bufTrans, MAX_STROKE_BUFFER],
    history_bound_fifty_one orthoCat (bufTrans 50) [['b'], ['c']]
      (by simp [bufTrans, MAX_STROKE_BUFFER])⟩

/-- C6: `handle_command("clear_prev_strokes")` is idempotent — a second
application leaves the state identical — and the retained history is exactly
the most recent stroke (or empty when the history was empty). -/
theorem clear_prev_strokes_idempotent (t : StandardTranslator) :
    handle_command (handle_command t clearPrevStrokesCmd) clearPrevStrokesCmd =
        handle_command t clearPrevStrokesCmd ∧
      (handle_command t clearPrevStrokesCmd).prev_strokes.length ≤ 1 ∧
      (handle_command t clearPrevStrokesCmd).prev_strokes =
        (match t.prev_strokes.getLast? with
          | some last => [last]
          | none => []) := by
  simp only [handle_command, if_pos rfl]
  refine ⟨?_, ?_, rfl⟩
  · cases h : t.prev_strokes.getLast? <;> simp
  · cases h : t.prev_strokes.getLast? <;> simp

/-- C7: `handle_command` with any string other than the two recognized
commands leaves the state unchanged; `"toggle_space_after"` flips exactly
`space_after`; `"clear_prev_strokes"` changes only `prev_strokes`. -/
theorem handle_command_frame (t : StandardTranslator) (cmd : Str) :
    (cmd ≠ clearPrevStrokesCmd → cmd ≠ toggleSpaceAfterCmd →
        handle_command t cmd = t) ∧
      handle_command t toggleSpaceAfterCmd =
        { t with space_after := !t.space_after } ∧
      ((handle_command t clearPrevStrokesCmd).dict = t.dict ∧
        (handle_command t clearPrevStrokesCmd).retrospective_add_space =
          t.retrospective_add_space ∧
        (handle_command t clearPrevStrokesCmd).add_space_insert =
          t.add_space_insert ∧
        (handle_command t clearPrevStrokesCmd).space_after = t.space_after) := by
  refine ⟨fun h1 h2 => ?_, ?_, ?_, ?_, ?_, ?_⟩
  · simp [handle_command, h1, h2]
  · simp [handle_command, clearPrevStrokesCmd, toggleSpaceAfterCmd]
  all_goals simp [handle_command]

theorem handle_command_frame_witness :
    (['x'] : Str) ≠ clearPrevStrokesCmd ∧ (['x'] : Str) ≠ toggleSpaceAfterCmd ∧
      handle_command (bufTrans 1) ['x'] = bufTrans 1 :=
  ⟨by decide, by decide,
    (handle_command_frame (bufTrans 1) ['x']).1 (by decide) (by decide)⟩

/-- C8: `translate` is deterministic — it is a pure function of the five
state fields and the stroke, so two translators with equal fields yield equal
command vectors and equal successor states; in this embedding no other state
exists for it to read. -/
theorem translate_deterministic (ortho : Str → Str → Str)
    (t1 t2 : StandardTranslator) (s : Stroke)
    (h1 : t1.prev_strokes = t2.prev_strokes) (h2 : t1.dict = t2.dict)
    (h3 : t1.retrospective_add_space = t2.retrospective_add_space)
    (h4 : t1.add_space_insert = t2.add_space_insert)
    (h5 : t1.space_after = t2.space_after) :
    translate ortho t1 s = translate ortho t2 s := by
  obtain ⟨p1, d1, r1, a1, s1⟩ := t1
  obtain ⟨p2, d2, r2, a2, s2⟩ := t2
  simp only at h1 h2 h3 h4 h5
  subst h1 h2 h3 h4 h5
  rfl

theorem translate_deterministic_witness :
    translate orthoCat (bufTrans 3) ['b'] = translate orthoCat (bufTrans 3) ['b'] :=
  translate_deterministic orthoCat (bufTrans 3) (bufTrans 3) ['b']
    rfl rfl rfl rfl rfl

/-! ### Retrospective space insertion (C2) -/

theorem retroIndexGo_eq_idxOfTextual (d : Dictionary) (l : List Stroke)
    (idx : Nat) :
    retroIndexGo d l idx =
      (match idxOfTextual d l with
        | some j => idx - 1 - j
        | none => idx - l.length) := by
  induction l generalizing idx with
  | nil => simp [retroIndexGo, idxOfTextual]
  | cons s rest ih =>
    simp only [retroIndexGo, idxOfTextual]
    split
    · simp
    · rw [ih (idx - 1)]
      cases h : idxOfTextual d rest with
      | none =>
        simp only [h, Option.map_none', List.length_cons]
        show idx - 1 - rest.length = idx - (rest.length + 1)
        omega
      | some j =>
        simp only [h, Option.map_some']
        show idx - 1 - 1 - j = idx - 1 - (j + 1)
        omega

theorem retroIndex_eq_newestTextualIdx (d : Dictionary) (ps : List Stroke) :
    retroIndex d ps = newestTextualIdx d ps := by
  unfold retroIndex newestTextualIdx
  rw [retroIndexGo_eq_idxOfTextual]
  cases h : idxOfTextual d ps.reverse <;> simp [h]

/-- C2: when a stroke in `retrospective_add_space` is translated (under the
constructor invariant, which makes `add_space_insert` a `some`), the new
history is exactly the (pruned) old history with the `add_space_insert`
stroke inserted immediately before the newest stroke whose single-stroke
translation is textual per `is_text` — at position 0 when no such stroke
exists — and the triggering stroke itself is not appended. -/
theorem retro_space_insertion (ortho : Str → Str → Str)
    (t : StandardTranslator) (stroke sp : Stroke)
    (hmem : t.retrospective_add_space.contains stroke = true)
    (hsp : t.add_space_insert = some sp) :
    (translate ortho t stroke).2.prev_strokes =
      (prunedStrokes t).insertIdx
        (newestTextualIdx t.dict (prunedStrokes t)) sp := by
  rw [translate_prev_eq, if_pos hmem, hsp,
    retroIndex_eq_newestTextualIdx]

theorem retro_space_insertion_witness :
    retroTrans.retrospective_add_space.contains ['r'] = true ∧
      retroTrans.add_space_insert = some [' '] ∧
      (translate orthoCat retroTrans ['r']).2.prev_strokes = [[' '], ['H']] := by
  refine ⟨rfl, rfl, ?_⟩
  rw [retro_space_insertion orthoCat retroTrans ['r'] [' '] rfl rfl]
  simp [retroTrans, prunedStrokes, newestTextualIdx, idxOfTextual, dictTranslate,
    probeLens, Dictionary.lookup, emptyDict, is_text, anyNonEmptyText,
    MAX_STROKE_BUFFER, joinSlash]

/-! ### Greedy lookup (C4) -/

namespace Lookup

theorem lookupProbe_eq (d : LDict) (ss : List Stroke) (m : Nat) :
    lookupProbe d ss m =
      (if Nat.findGreatest (probeP d ss) m = 0 then none
       else (d (ss.take (Nat.findGreatest (probeP d ss) m))).map
         (fun ts => (Nat.findGreatest (probeP d ss) m - 1, ts))) := by
  induction m with
  | zero => simp [lookupProbe, Nat.findGreatest_zero]
  | succ m ih =>
    rw [Nat.findGreatest_succ]
    by_cases hp : probeP d ss (m + 1)
    · obtain ⟨ts, hts⟩ := Option.isSome_iff_exists.mp hp
      simp only [lookupProbe, hts, if_pos hp]
      simp
    · have hnone : d (ss.take (m + 1)) = none :=
        Option.not_isSome_iff_eq_none.mp (by simpa [probeP] using hp)
      simp only [lookupProbe, hnone, if_neg hp]
      exact ih

theorem translate_strokes_eq_greedySpec_aux (d : LDict) :
    ∀ n (l : List Stroke), l.length ≤ n →
      translate_strokes d l = greedySpec d l := by
  intro n
  induction n with
  | zero =>
    intro l hl
    have : l = [] := List.length_eq_zero.mp (Nat.le_zero.mp hl)
    subst this
    simp [translate_strokes, greedySpec]
  | succ n ih =>
    intro l hl
    match l with
    | [] => simp [translate_strokes, greedySpec]
    | s :: rest =>
      have hbl : Nat.findGreatest (probeP d (s :: rest)) (min 15 (rest.length + 1)) =
          bestLen d (s :: rest) := by
        rw [bestLen]
        simp
      simp only [translate_strokes, greedySpec, lookupProbe_eq, hbl]
      simp only [List.length_cons] at hl
      by_cases h0 : bestLen d (s :: rest) = 0
      · simp only [h0, if_pos rfl, ite_true]
        rw [ih rest (by omega)]
      · have hP : probeP d (s :: rest) (bestLen d (s :: rest)) :=
          Nat.findGreatest_of_ne_zero hbl h0
        obtain ⟨ts, hts⟩ := Option.isSome_iff_exists.mp hP
        obtain ⟨k, hk⟩ := Nat.exists_eq_succ_of_ne_zero h0
        rw [hk] at hts
        simp only [hk, Nat.succ_ne_zero, if_false, hts, Option.map_some',
          Option.getD_some, List.drop_succ_cons, Nat.succ_sub_one]
        have hlen : (rest.drop k).length ≤ n := by
          simp only [List.length_drop]
          omega
        rw [ih (rest.drop k) hlen]

theorem lookupProbe_congr (d d' : LDict)
    (hag : ∀ ks : List Stroke, ks.length ≤ 15 → d ks = d' ks)
    (ss : List Stroke) :
    ∀ m, m ≤ 15 → lookupProbe d ss m = lookupProbe d' ss m := by
  intro m
  induction m with
  | zero => intro _; rfl
  | succ m ih =>
    intro hm
    have hkey : (ss.take (m + 1)).length ≤ 15 := by
      simp only [List.length_take]
      omega
    simp only [lookupProbe, hag _ hkey]
    cases d' (ss.take (m + 1)) with
    | none => exact ih (by omega)
    | some ts => rfl

theorem translate_strokes_congr_aux (d d' : LDict)
    (hag : ∀ ks : List Stroke, ks.length ≤ 15 → d ks = d' ks) :
    ∀ n (l : List Stroke), l.length ≤ n →
      translate_strokes d l = translate_strokes d' l := by
  intro n
  induction n with
  | zero =>
    intro l hl
    have : l = [] := List.length_eq_zero.mp (Nat.le_zero.mp hl)
    subst this
    simp [translate_strokes]
  | succ n ih =>
    intro l hl
    match l with
    | [] => simp [translate_strokes]
    | s :: rest =>
      simp only [List.length_cons] at hl
      simp only [translate_strokes,
        lookupProbe_congr d d' hag (s :: rest) (min 15 (rest.length + 1))
          (Nat.min_le_left _ _)]
      cases hpr : lookupProbe d' (s :: rest) (min 15 (rest.length + 1)) with
      | none => rw [ih rest (by omega)]
      | some r =>
        obtain ⟨k, ts⟩ := r
        have hlen : (rest.drop k).length ≤ n := by
          simp only [List.length_drop]
          omega
        show ts ++ translate_strokes d (rest.drop k) =
          ts ++ translate_strokes d' (rest.drop k)
        rw [ih (rest.drop k) hlen]

end Lookup

/-- C4: the greedy lookup of `src/src/translator/lookup.rs` coincides with the
claim-side greedy specification (left-to-right scan, longest match of at most
15 strokes wins, unknown single strokes emit `UnknownStroke` and advance by
one), and its result is unchanged when the dictionary is replaced by any
dictionary agreeing on all keys of at most 15 strokes — i.e. no longer key is
ever consulted. -/
theorem greedy_lookup_spec (d d' : Lookup.LDict)
    (hag : ∀ ks : List Stroke, ks.length ≤ 15 → d ks = d' ks)
    (l : List Stroke) :
    Lookup.translate_strokes d l = Lookup.greedySpec d l ∧
      Lookup.translate_strokes d l = Lookup.translate_strokes d' l :=
  ⟨Lookup.translate_strokes_eq_greedySpec_aux d l.length l le_rfl,
    Lookup.translate_strokes_congr_aux d d' hag l.length l le_rfl⟩

theorem greedy_lookup_spec_witness :
    Lookup.translate_strokes lookupDictW [['h'], ['x']] =
        Lookup.greedySpec lookupDictW [['h'], ['x']] ∧
      Lookup.translate_strokes lookupDictW [['h'], ['x']] =
        Lookup.translate_strokes lookupDictW [['h'], ['x']] :=
  greedy_lookup_spec lookupDictW lookupDictW (fun _ _ => rfl) [['h'], ['x']]

/-! #### Byte-index machinery -/

theorem byteLen_nil : byteLen [] = 0 := rfl

theorem byteLen_cons (c : Char) (s : Str) :
    byteLen (c :: s) = c.utf8Size + byteLen s := by
  simp [byteLen]

theorem byteLen_append (a b : Str) : byteLen (a ++ b) = byteLen a + byteLen b := by
  simp [byteLen]

theorem boundaryPos_zero (s : Str) : boundaryPos s 0 = some 0 := by
  cases s <;> rfl

theorem boundaryPos_cons_big (c : Char) (rest : Str) (i : Nat)
    (h : c.utf8Size ≤ i) :
    boundaryPos (c :: rest) i = (boundaryPos rest (i - c.utf8Size)).map (· + 1) := by
  have hpos := Char.utf8Size_pos c
  cases i with
  | zero => omega
  | succ j =>
    simp only [boundaryPos]
    rw [if_neg (by omega)]

theorem boundaryPos_byteLen_take (s : Str) (k : Nat) (h : k ≤ s.length) :
    boundaryPos s (byteLen (s.take k)) = some k := by
  induction k generalizing s with
  | zero =>
    rw [List.take_zero, byteLen_nil, boundaryPos_zero]
  | succ k ih =>
    match s with
    | [] => simp at h
    | c :: rest =>
      have hsz := Char.utf8Size_pos c
      rw [List.take_succ_cons, byteLen_cons,
        boundaryPos_cons_big c rest _ (by omega),
        Nat.add_sub_cancel_left, ih rest (by simpa using h)]
      rfl

theorem boundaryPos_append (u v : Str) :
    boundaryPos (u ++ v) (byteLen u) = some u.length := by
  have := boundaryPos_byteLen_take (u ++ v) u.length (by simp)
  rwa [List.take_left] at this

theorem sliceFrom_append (u v : Str) : sliceFrom (u ++ v) (byteLen u) = some v := by
  rw [sliceFrom, boundaryPos_append]
  simp [List.drop_left]

theorem sliceTo_append (u v : Str) : sliceTo (u ++ v) (byteLen u) = some u := by
  rw [sliceTo, boundaryPos_append]
  simp [List.take_left]

theorem sliceFrom_zero (s : Str) : sliceFrom s 0 = some s := by
  simp [sliceFrom, boundaryPos_zero]

theorem sliceTo_zero (s : Str) : sliceTo s 0 = some [] := by
  simp [sliceTo, boundaryPos_zero]

theorem rfindByte_none_iff (p : Char → Bool) (s : Str) :
    rfindByte p s = none ↔ ∀ c ∈ s, p c = false := by
  induction s with
  | nil => simp [rfindByte]
  | cons c rest ih =>
    simp only [rfindByte]
    cases h : rfindByte p rest with
    | some i =>
      have hnotall : ¬ ∀ x ∈ rest, p x = false := fun hall => by
        simp [ih.mpr hall] at h
      refine iff_of_false (by simp) ?_
      intro hall
      exact hnotall fun x hx => hall x (List.mem_cons_of_mem _ hx)
    | none =>
      by_cases hc : p c
      · refine iff_of_false (by simp [hc]) ?_
        intro hall
        simp [hall c (List.mem_cons_self c rest)] at hc
      · simp only [hc, if_false]
        constructor
        · intro _ x hx
          rcases List.mem_cons.mp hx with rfl | hx'
          · simpa using hc
          · exact ih.mp h x hx'
        · intro _; rfl

theorem rfindByte_some_decomp (p : Char → Bool) (s : Str) (i : Nat)
    (h : rfindByte p s = some i) :
    ∃ u c v, s = u ++ c :: v ∧ p c = true ∧ (∀ x ∈ v, p x = false) ∧
      i = byteLen u := by
  induction s generalizing i with
  | nil => simp [rfindByte] at h
  | cons a rest ih =>
    simp only [rfindByte] at h
    cases hr : rfindByte p rest with
    | some j =>
      rw [hr] at h
      obtain ⟨u, c, v, hs, hc, hv, hj⟩ := ih j hr
      refine ⟨a :: u, c, v, by rw [hs]; rfl, hc, hv, ?_⟩
      rw [byteLen_cons, ← hj]
      simpa using h.symm
    | none =>
      rw [hr] at h
      by_cases hc : p a
      · rw [if_pos hc] at h
        refine ⟨[], a, rest, rfl, hc, (rfindByte_none_iff p rest).mp hr, ?_⟩
        simpa [byteLen] using h.symm
      · rw [if_neg hc] at h
        exact absurd h (by simp)

theorem rfindByte_append_last (p : Char → Bool) (u v : Str) (c : Char)
    (hc : p c = true) (hv : ∀ x ∈ v, p x = false) :
    rfindByte p (u ++ c :: v) = some (byteLen u) := by
  induction u with
  | nil =>
    simp only [List.nil_append, rfindByte, (rfindByte_none_iff p v).mpr hv, hc]
    simp [byteLen]
  | cons a u' ih =>
    simp only [List.cons_append, rfindByte, List.append_eq, ih, byteLen_cons]

theorem charIndicesFrom_find (off : Nat) (u v : Str) (c : Char) :
    (charIndicesFrom off (u ++ c :: v)).find?
        (fun x => x.1 = off + byteLen u) = some (off + byteLen u, c) := by
  induction u generalizing off with
  | nil =>
    simp [charIndicesFrom, List.find?, byteLen]
  | cons a u' ih =>
    have hsz := Char.utf8Size_pos a
    simp only [List.cons_append, charIndicesFrom, List.find?, byteLen_cons]
    have hne : (decide (off = off + (a.utf8Size + byteLen u'))) = false := by
      simp
      omega
    rw [hne]
    have := ih (off + a.utf8Size)
    rw [show off + a.utf8Size + byteLen u' = off + (a.utf8Size + byteLen u') by omega] at this
    exact this

theorem charIndices_find (u v : Str) (c : Char) :
    (charIndices (u ++ c :: v)).find? (fun x => x.1 = byteLen u) =
      some (byteLen u, c) := by
  have := charIndicesFrom_find 0 u v c
  simpa [charIndices] using this

/-! #### Character case-map lemmas -/

theorem char_toNat_inj (a b : Char) (h : a.toNat = b.toNat) : a = b := by
  rcases a with ⟨⟨av, ha⟩, hva⟩
  rcases b with ⟨⟨bv, hb⟩, hvb⟩
  simp [Char.toNat, UInt32.toNat] at h
  simp_all

theorem toNat_ofNat_lt (n : Nat) (h : n < 55296) : (Char.ofNat n).toNat = n := by
  unfold Char.ofNat
  split
  · rename_i h'
    simp [Char.ofNatAux, Char.toNat, UInt32.toNat, BitVec.toNat_ofNatLt]
  · exact absurd (Or.inl h) (by assumption)

theorem wordChars_contains_iff (x : Char) :
    wordChars.contains x = true ↔ (x = '-' ∨ x = '_') := by
  simp [wordChars, List.contains]

theorem char_eq_iff_toNat (x y : Char) : x = y ↔ x.toNat = y.toNat :=
  ⟨fun h => by rw [h], fun h => char_toNat_inj _ _ h⟩

theorem rustCharToLower_not_upper (c : Char) :
    ¬(65 ≤ (rustCharToLower c).toNat ∧ (rustCharToLower c).toNat ≤ 90) := by
  unfold rustCharToLower
  by_cases h : 65 ≤ c.toNat ∧ c.toNat ≤ 90
  · rw [if_pos h, toNat_ofNat_lt _ (by omega)]
    omega
  · rw [if_neg h]
    omega

theorem rustToLowercase_no_upper (w : Str) :
    ∀ c ∈ rustToLowercase w, ¬(65 ≤ c.toNat ∧ c.toNat ≤ 90) := by
  intro c hc
  obtain ⟨a, _, rfl⟩ := List.mem_map.mp hc
  exact rustCharToLower_not_upper a

/-- On ASCII characters, `char::to_uppercase` yields a single ASCII character
with the same word-character classification and the same lowercase mapping as
the original.  (This fails for `'ß'`, whose uppercase is the two-character
`"SS"`.) -/
theorem rustCharToUppercase_ascii (c : Char) (h : c.toNat ≤ 127) :
    ∃ c', rustCharToUppercase c = [c'] ∧ c'.toNat ≤ 127 ∧
      isWordChar c' = isWordChar c ∧ rustCharToLower c' = rustCharToLower c := by
  unfold rustCharToUppercase
  by_cases h1 : 97 ≤ c.toNat ∧ c.toNat ≤ 122
  · rw [if_pos h1]
    have hv : (Char.ofNat (c.toNat - 32)).toNat = c.toNat - 32 :=
      toNat_ofNat_lt _ (by omega)
    refine ⟨_, rfl, by rw [hv]; omega, ?_, ?_⟩
    · rw [Bool.eq_iff_iff]
      simp only [isWordChar, Bool.or_eq_true, wordChars_contains_iff,
        rustIsAlphanumeric, rustIsAlphabetic, isDigitChar,
        char_eq_iff_toNat, hv, decide_eq_true_eq]
      have h45 : ('-' : Char).toNat = 45 := by decide
      have h95 : ('_' : Char).toNat = 95 := by decide
      rw [h45, h95]
      omega
    · unfold rustCharToLower
      rw [hv, if_pos (by omega),
        show c.toNat - 32 + 32 = c.toNat by omega, Char.ofNat_toNat,
        if_neg (by omega)]
  · rw [if_neg h1, if_neg (show ¬ c.toNat = 223 by omega)]
    exact ⟨c, rfl, h, rfl, rfl⟩

theorem rustToLowercase_wcfl_ascii (w : Str) (h : ∀ c ∈ w, c.toNat ≤ 127) :
    rustToLowercase (word_change_first_letter w) = rustToLowercase w := by
  cases w with
  | nil => rfl
  | cons c rest =>
    obtain ⟨c', hc', _, _, hlow⟩ :=
      rustCharToUppercase_ascii c (h c (List.mem_cons_self c rest))
    rw [show word_change_first_letter (c :: rest) = rustCharToUppercase c ++ rest
      from rfl, hc']
    simp [rustToLowercase, hlow]

/-! #### `find_last_word` and `perform_text_action` evaluation -/

theorem notWord_false_of_isWordChar (x : Char) (h : isWordChar x = true) :
    (!(rustIsAlphanumeric x || wordChars.contains x)) = false := by
  unfold isWordChar at h
  rw [h]
  rfl

theorem notWord_true_of_not_isWordChar (c : Char) (h : isWordChar c = false) :
    (!(rustIsAlphanumeric c || wordChars.contains c)) = true := by
  unfold isWordChar at h
  rw [h]
  rfl

theorem isWordChar_of_notWord_false (x : Char)
    (h : (!(rustIsAlphanumeric x || wordChars.contains x)) = false) :
    isWordChar x = true := by
  unfold isWordChar
  cases hb : rustIsAlphanumeric x || wordChars.contains x
  · rw [hb] at h
    simp at h
  · rfl

theorem not_isWordChar_of_notWord_true (x : Char)
    (h : (!(rustIsAlphanumeric x || wordChars.contains x)) = true) :
    isWordChar x = false := by
  unfold isWordChar
  cases hb : rustIsAlphanumeric x || wordChars.contains x
  · rfl
  · rw [hb] at h
    simp at h

theorem find_last_word_allword (t : Str) (h : ∀ x ∈ t, isWordChar x = true) :
    find_last_word t = some 0 := by
  unfold find_last_word
  have hrf : rfindByte (fun c => !(rustIsAlphanumeric c || wordChars.contains c)) t
      = none :=
    (rfindByte_none_iff _ t).mpr fun x hx => notWord_false_of_isWordChar x (h x hx)
  rw [hrf]
  rfl

theorem find_last_word_decomp (u v : Str) (c : Char)
    (hc : isWordChar c = false) (hv : ∀ x ∈ v, isWordChar x = true) :
    find_last_word (u ++ c :: v) = some (byteLen (u ++ [c])) := by
  unfold find_last_word
  have hrf : rfindByte (fun c => !(rustIsAlphanumeric c || wordChars.contains c))
      (u ++ c :: v) = some (byteLen u) :=
    rfindByte_append_last _ u v c (notWord_true_of_not_isWordChar c hc)
      fun x hx => notWord_false_of_isWordChar x (hv x hx)
  rw [hrf]
  simp [sliceFrom_append, byteLen_append, byteLen_cons, byteLen_nil]

theorem lastWord_cases (t : Str) :
    (∀ x ∈ t, isWordChar x = true) ∨
      (∃ u c v, t = u ++ c :: v ∧ isWordChar c = false ∧
        ∀ x ∈ v, isWordChar x = true) := by
  cases h : rfindByte (fun c => !(rustIsAlphanumeric c || wordChars.contains c)) t with
  | none =>
    left
    intro x hx
    exact isWordChar_of_notWord_false x ((rfindByte_none_iff _ t).mp h x hx)
  | some i =>
    right
    obtain ⟨u, c, v, hs, hc, hv, _⟩ := rfindByte_some_decomp _ t i h
    exact ⟨u, c, v, hs, not_isWordChar_of_notWord_true c hc,
      fun x hx => isWordChar_of_notWord_false x (hv x hx)⟩

theorem perform_capitalizePrev_allword (t : Str)
    (h : ∀ x ∈ t, isWordChar x = true) :
    perform_text_action t .CapitalizePrev = some (word_change_first_letter t) := by
  simp only [perform_text_action]
  rw [find_last_word_allword t h]
  simp [sliceFrom_zero, sliceTo_zero]

theorem perform_capitalizePrev_decomp (u v : Str) (c : Char)
    (hc : isWordChar c = false) (hv : ∀ x ∈ v, isWordChar x = true) :
    perform_text_action (u ++ c :: v) .CapitalizePrev =
      some ((u ++ [c]) ++ word_change_first_letter v) := by
  simp only [perform_text_action]
  rw [find_last_word_decomp u v c hc hv]
  have h1 : sliceFrom (u ++ c :: v) (byteLen (u ++ [c])) = some v := by
    have := sliceFrom_append (u ++ [c]) v
    simpa using this
  have h2 : sliceTo (u ++ c :: v) (byteLen (u ++ [c])) = some (u ++ [c]) := by
    have := sliceTo_append (u ++ [c]) v
    simpa using this
  simp [h1, h2]

theorem perform_sameCasePrev_allword (b : Bool) (t : Str)
    (h : ∀ x ∈ t, isWordChar x = true) :
    perform_text_action t (.SameCasePrev b) =
      some (if b then rustToUppercase t else rustToLowercase t) := by
  simp only [perform_text_action]
  rw [find_last_word_allword t h]
  simp [sliceFrom_zero, sliceTo_zero]

theorem perform_sameCasePrev_decomp (b : Bool) (u v : Str) (c : Char)
    (hc : isWordChar c = false) (hv : ∀ x ∈ v, isWordChar x = true) :
    perform_text_action (u ++ c :: v) (.SameCasePrev b) =
      some ((u ++ [c]) ++ (if b then rustToUppercase v else rustToLowercase v)) := by
  simp only [perform_text_action]
  rw [find_last_word_decomp u v c hc hv]
  have h1 : sliceFrom (u ++ c :: v) (byteLen (u ++ [c])) = some v := by
    have := sliceFrom_append (u ++ [c]) v
    simpa using this
  have h2 : sliceTo (u ++ c :: v) (byteLen (u ++ [c])) = some (u ++ [c]) := by
    have := sliceTo_append (u ++ [c]) v
    simpa using this
  simp [h1, h2]

/-! #### Totality of the formatter (C10) -/

theorem bind_isSome_of {α β : Type} (x : Option α) (f : α → Option β) (a : α)
    (hx : x = some a) (hf : (f a).isSome = true) : (x >>= f).isSome = true := by
  subst hx
  exact hf

theorem perform_text_action_isSome (t : Str) (a : TextAction) :
    (perform_text_action t a).isSome := by
  cases a with
  | CapitalizePrev =>
    rcases lastWord_cases t with h | ⟨u, c, v, ht, hc, hv⟩
    · rw [perform_capitalizePrev_allword t h]
      rfl
    · rw [ht, perform_capitalizePrev_decomp u v c hc hv]
      rfl
  | SameCasePrev b =>
    rcases lastWord_cases t with h | ⟨u, c, v, ht, hc, hv⟩
    · rw [perform_sameCasePrev_allword b t h]
      rfl
    · rw [ht, perform_sameCasePrev_decomp b u v c hc hv]
      rfl
  | SuppressSpacePrev =>
    simp only [perform_text_action]
    split
    · rename_i h
      obtain ⟨hpos, hget⟩ := h
      cases hbp : boundaryPos t (find_last_word_space t - 1) with
      | none => rw [getByteRange, hbp] at hget; cases hget
      | some p =>
        cases hbq : boundaryPos t (find_last_word_space t) with
        | none => rw [getByteRange, hbp, hbq] at hget; cases hget
        | some q =>
          have hred : getByteRange t (find_last_word_space t - 1)
              (find_last_word_space t) =
              if p ≤ q then some ((t.take q).drop p) else none := by
            rw [getByteRange, hbp, hbq]
          rw [hred] at hget
          by_cases hpq : p ≤ q
          · rw [if_pos hpq] at hget
            have hlen : ((t.take q).drop p).length = 1 := by
              rw [Option.some_inj.mp hget]
              rfl
            have hp : p < t.length := by
              simp only [List.length_drop, List.length_take] at hlen
              omega
            rw [removeByte, hbp]
            simp [hp]
          · rw [if_neg hpq] at hget
            cases hget
    · rfl

theorem applyOrthoStep_isSome (ortho : Str → Str → Str) (str text : Str) :
    (applyOrthoStep ortho str text).isSome := by
  unfold applyOrthoStep
  cases hrf : rfindByte (fun c => !rustIsAlphabetic c) str with
  | none =>
    refine bind_isSome_of _ _ 0 rfl ?_
    show (if 0 < byteLen str then do
        let suffix ← sliceFrom str 0
        let pre ← sliceTo str 0
        some (pre ++ ortho suffix text)
      else some (str ++ text)).isSome = true
    split
    · refine bind_isSome_of _ _ str (sliceFrom_zero str) ?_
      refine bind_isSome_of _ _ [] (sliceTo_zero str) ?_
      rfl
    · rfl
  | some i =>
    obtain ⟨u, c, v, hs, hc, hv, hi⟩ := rfindByte_some_decomp _ str i hrf
    subst hs
    subst hi
    have hfind := charIndices_find u v c
    simp only [hfind, if_pos (Char.utf8Size_pos c)]
    have hidx : byteLen u + c.utf8Size = byteLen (u ++ [c]) := by
      simp [byteLen_append, byteLen_cons, byteLen_nil]
    have h1 : sliceFrom (u ++ c :: v) (byteLen u + c.utf8Size) = some v := by
      rw [hidx]
      have := sliceFrom_append (u ++ [c]) v
      simpa using this
    have h2 : sliceTo (u ++ c :: v) (byteLen u + c.utf8Size) = some (u ++ [c]) := by
      rw [hidx]
      have := sliceTo_append (u ++ [c]) v
      simpa using this
    refine bind_isSome_of _ _ (byteLen u + c.utf8Size) rfl ?_
    show (if byteLen u + c.utf8Size < byteLen (u ++ c :: v) then do
        let suffix ← sliceFrom (u ++ c :: v) (byteLen u + c.utf8Size)
        let pre ← sliceTo (u ++ c :: v) (byteLen u + c.utf8Size)
        some (pre ++ ortho suffix text)
      else some ((u ++ c :: v) ++ text)).isSome = true
    split
    · refine bind_isSome_of _ _ v h1 ?_
      refine bind_isSome_of _ _ (u ++ [c]) h2 ?_
      rfl
    · rfl

theorem formatStep_isSome (ortho : Str → Str → Str) (str : Str) (state : State)
    (t : Text) : (formatStep ortho str state t).isSome := by
  cases t with
  | Lit s => simp [formatStep]
  | UnknownStroke s =>
    simp only [formatStep]
    split <;> simp
  | Glued s => simp [formatStep]
  | StateAction a => simp [formatStep]
  | TextAction a =>
    simp only [formatStep]
    have := perform_text_action_isSome str a
    cases h : perform_text_action str a
    · rw [h] at this
      cases this
    · simp [h]
  | Attached text jn jp carry =>
    cases carry <;> cases jp <;> cases hss : state.suppress_space <;>
      simp [formatStep, hss, Option.isSome_map', applyOrthoStep_isSome]

theorem formatLoop_isSome (ortho : Str → Str → Str) (ts : List Text) :
    ∀ (str : Str) (state : State), (formatLoop ortho str state ts).isSome := by
  induction ts with
  | nil => intro str state; rfl
  | cons t rest ih =>
    intro str state
    simp only [formatLoop]
    have hstep := formatStep_isSome ortho str state t
    cases h : formatStep ortho str state t with
    | none => rw [h] at hstep; cases hstep
    | some r =>
      obtain ⟨str', state'⟩ := r
      refine bind_isSome_of _ _ (str', state') rfl ?_
      exact ih str' state'

theorem spaceAfterPass_isSome (str : Str) (state : State) (space_after : Bool) :
    (spaceAfterPass str state space_after).isSome := by
  unfold spaceAfterPass
  split
  · cases str with
    | nil => rfl
    | cons a l =>
      by_cases hc : a = ' '
      · subst hc
        simp [removeByte, boundaryPos_zero]
      · simp [hc]
  · rfl

theorem parse_translation_isSome (ortho : Str → Str → Str) (ts : List Text)
    (space_after : Bool) : (parse_translation ortho ts space_after).isSome := by
  unfold parse_translation
  cases h : formatLoop ortho [] {} ts with
  | none =>
    have hloop := formatLoop_isSome ortho ts [] {}
    rw [h] at hloop
    cases hloop
  | some r =>
    obtain ⟨str, state⟩ := r
    refine bind_isSome_of _ _ (str, state) rfl ?_
    exact spaceAfterPass_isSome str state space_after

/-- C10: `parse_translation` is total — for every atom list, `space_after`
flag, and orthography function it returns a string: no modelled panic site
(the `assert!(char_size > 0)`, the byte-index slicings of the output buffer,
`String::remove`, or the `unwrap` in `find_last_word`) is ever reached with an
invalid index, since every byte index used is produced by character-boundary
iteration. -/
theorem parse_translation_total (ortho : Str → Str → Str) (ts : List Text)
    (space_after : Bool) : ∃ s, parse_translation ortho ts space_after = some s :=
  Option.isSome_iff_exists.mp (parse_translation_isSome ortho ts space_after)

/-! #### Carry-capitalization (C5) -/

/-- C5 counterexample: with `force_same_case = Some(true)` pending, an
`Attached` atom with `carry_capitalization = true` and text `"ab"` renders as
`"AB"` — the case transform *is* applied to the atom's own text (the code
clears only `force_capitalize`, not `force_same_case`), contradicting the
claim that neither setting is applied to that atom's text (which would give
`" ab"`). -/
theorem carry_capitalization_applies_same_case :
    parse_translation orthoCat
        [Text.StateAction (StateAction.SameCase true),
          Text.Attached ['a', 'b'] false AttachedType.DoNotAttach true]
        false = some [' ', 'A', 'B'] ∧
      (some [' ', 'A', 'B'] : Option Str) ≠ some [' ', 'a', 'b'] := by
  constructor
  · rfl
  · decide

/-- C5 (amended): when an `Attached` atom has `carry_capitalization = true`,
the state for the following atom receives the current `force_capitalize` and
`force_same_case`; only `force_capitalize` is cleared before the atom itself
is rendered, so `force_capitalize` is not applied to the atom's own text, but
`force_same_case` is not cleared and is still applied to it. -/
theorem carry_capitalization_amended (ortho : Str → Str → Str) (str : Str)
    (state : State) (text : Str) (jn : Bool) :
    formatStep ortho str state (Text.Attached text jn AttachedType.DoNotAttach true) =
        some ((if state.suppress_space then str else str ++ [' ']) ++
            (match state.force_same_case with
              | some b => if b then rustToUppercase text else rustToLowercase text
              | none => text),
          { suppress_space := jn, force_capitalize := state.force_capitalize,
            prev_is_glued := false, force_same_case := state.force_same_case }) ∧
      (∀ (jp : AttachedType) (res : Str × State),
        formatStep ortho str state (Text.Attached text jn jp true) = some res →
          res.2.force_capitalize = state.force_capitalize ∧
            res.2.force_same_case = state.force_same_case) := by
  constructor
  · cases hss : state.suppress_space <;>
      simp [formatStep, emitWord, hss]
  · intro jp res h
    cases jp with
    | DoNotAttach =>
      cases hss : state.suppress_space <;>
        · simp only [formatStep, hss] at h
          simp only [← Option.some_inj.mp h]
          exact ⟨rfl, rfl⟩
    | AttachOnly =>
      cases hss : state.suppress_space <;>
        · simp only [formatStep, hss] at h
          simp only [← Option.some_inj.mp h]
          exact ⟨rfl, rfl⟩
    | ApplyOrthography =>
      cases hss : state.suppress_space with
      | true =>
        simp only [formatStep, hss] at h
        simp only [← Option.some_inj.mp h]
        exact ⟨rfl, rfl⟩
      | false =>
        simp only [formatStep, hss] at h
        cases ho : applyOrthoStep ortho str text with
        | none => rw [ho] at h; cases h
        | some str' =>
          rw [ho] at h
          simp only [Option.map_some'] at h
          simp only [← Option.some_inj.mp h]
          exact ⟨rfl, rfl⟩

theorem carry_capitalization_amended_witness :
    formatStep orthoCat [] { force_same_case := some true }
        (Text.Attached ['a', 'b'] false AttachedType.DoNotAttach true) =
      some ([' ', 'A', 'B'],
        { suppress_space := false, force_capitalize := false,
          prev_is_glued := false, force_same_case := some true }) := by
  have h := (carry_capitalization_amended orthoCat []
    { force_same_case := some true } ['a', 'b'] false).1
  rw [h]
  rfl

/-! #### Case-transform ordering (C9) -/

theorem capPrev_lower_override_ascii (t : Str) (ht : ∀ c ∈ t, c.toNat ≤ 127) :
    (perform_text_action t .CapitalizePrev).bind
        (fun t' => perform_text_action t' (.SameCasePrev false)) =
      perform_text_action t (.SameCasePrev false) := by
  rcases lastWord_cases t with h | ⟨u, c, v, hteq, hc, hv⟩
  · cases t with
    | nil =>
      rw [perform_capitalizePrev_allword [] h, Option.some_bind]
      rw [show word_change_first_letter [] = [] from rfl]
    | cons c0 w =>
      rw [perform_capitalizePrev_allword (c0 :: w) h, Option.some_bind]
      obtain ⟨c0', hc0', _, hword', hlow'⟩ :=
        rustCharToUppercase_ascii c0 (ht c0 (List.mem_cons_self c0 w))
      rw [show word_change_first_letter (c0 :: w) = rustCharToUppercase c0 ++ w
        from rfl, hc0']
      have h0 : isWordChar c0 = true := h c0 (List.mem_cons_self c0 w)
      have hall' : ∀ x ∈ c0' :: w, isWordChar x = true := by
        intro x hx
        rcases List.mem_cons.mp hx with rfl | hx'
        · rw [hword']
          exact h0
        · exact h x (List.mem_cons_of_mem _ hx')
      rw [show ([c0'] ++ w : Str) = c0' :: w from rfl,
        perform_sameCasePrev_allword false _ hall',
        perform_sameCasePrev_allword false _ h]
      simp [rustToLowercase, hlow']
  · subst hteq
    rw [perform_capitalizePrev_decomp u v c hc hv, Option.some_bind]
    cases v with
    | nil =>
      rw [show word_change_first_letter [] = [] from rfl]
      have he : ((u ++ [c]) ++ ([] : Str)) = u ++ c :: ([] : Str) := by simp
      rw [he, perform_sameCasePrev_decomp false u [] c hc (by simp)]
    | cons c0 w =>
      obtain ⟨c0', hc0', _, hword', hlow'⟩ :=
        rustCharToUppercase_ascii c0 (ht c0 (by simp))
      rw [show word_change_first_letter (c0 :: w) = rustCharToUppercase c0 ++ w
        from rfl, hc0']
      have he : ((u ++ [c]) ++ ([c0'] ++ w)) = u ++ c :: (c0' :: w) := by simp
      rw [he]
      have h0 : isWordChar c0 = true := hv c0 (List.mem_cons_self c0 w)
      have hv' : ∀ x ∈ c0' :: w, isWordChar x = true := by
        intro x hx
        rcases List.mem_cons.mp hx with rfl | hx'
        · rw [hword']
          exact h0
        · exact hv x (List.mem_cons_of_mem _ hx')
      rw [perform_sameCasePrev_decomp false u _ c hc hv',
        perform_sameCasePrev_decomp false u _ c hc hv]
      simp [rustToLowercase, hlow']

/-- C9 counterexample: full case mapping breaks the override laws.  On the
buffer `" ßx"` (whose last word is `"ßx"` — `'ß'` is a letter),
`CapitalizePrev` expands `'ß'` to `"SS"` giving `" SSx"`, and a subsequent
`SameCasePrev(false)` yields `" ssx"`; `SameCasePrev(false)` alone leaves
`" ßx"`.  So `SameCasePrev(false)` after `CapitalizePrev` is *not* the same
as `SameCasePrev(false)` alone, and lowercase-after-capitalize is not
lowercase of the original word. -/
theorem capitalize_expands_eszett :
    ((perform_text_action [' ', 'ß', 'x'] .CapitalizePrev).bind
          (fun t' => perform_text_action t' (.SameCasePrev false))) =
        some [' ', 's', 's', 'x'] ∧
      perform_text_action [' ', 'ß', 'x'] (.SameCasePrev false) =
        some [' ', 'ß', 'x'] ∧
      ([' ', 's', 's', 'x'] : Str) ≠ [' ', 'ß', 'x'] ∧
      rustToLowercase (word_change_first_letter ['ß', 'x']) = ['s', 's', 'x'] ∧
      rustToLowercase ['ß', 'x'] = ['ß', 'x'] := by
  refine ⟨rfl, rfl, by decide, rfl, rfl⟩

/-- C9 (amended): in the word-emission step, first-letter capitalization is
applied first and the whole-word case transform second, so `force_same_case =
Some(false)` produces an all-lowercase word (no uppercase letter survives) —
the final casing is dictated by `SameCase`, overriding `ForceCapitalize`.
The stronger override *equations* — lowercase-after-capitalize equals
lowercase, and `SameCasePrev(false)` after `CapitalizePrev` equals
`SameCasePrev(false)` alone — hold for ASCII text but not in general: full
case mapping expands `'ß'` to `"SS"`, which then lowercases to `"ss" ≠ "ß"`. -/
theorem same_case_ordering_amended :
    (∀ (s ns : State) (w str : Str) (b : Bool),
      s.force_capitalize = true → s.force_same_case = some b →
        emitWord s ns w str =
          ((if s.suppress_space then str else str ++ [' ']) ++
            (if b then rustToUppercase (word_change_first_letter w)
              else rustToLowercase (word_change_first_letter w)), ns)) ∧
      (∀ (w : Str), ∀ c ∈ rustToLowercase w,
        ¬(65 ≤ c.toNat ∧ c.toNat ≤ 90)) ∧
      (∀ w : Str, (∀ c ∈ w, c.toNat ≤ 127) →
        rustToLowercase (word_change_first_letter w) = rustToLowercase w) ∧
      (∀ t : Str, (∀ c ∈ t, c.toNat ≤ 127) →
        (perform_text_action t .CapitalizePrev).bind
            (fun t' => perform_text_action t' (.SameCasePrev false)) =
          perform_text_action t (.SameCasePrev false)) := by
  refine ⟨?_, rustToLowercase_no_upper, rustToLowercase_wcfl_ascii,
    capPrev_lower_override_ascii⟩
  intro s ns w str b hfc hfsc
  simp [emitWord, hfc, hfsc]

theorem same_case_ordering_amended_witness :
    (∀ c ∈ (['N', 'a'] : Str), c.toNat ≤ 127) ∧
      rustToLowercase (word_change_first_letter ['N', 'a']) =
        rustToLowercase ['N', 'a'] ∧
      (∀ c ∈ ([' ', 'a', 'b'] : Str), c.toNat ≤ 127) ∧
      (perform_text_action [' ', 'a', 'b'] .CapitalizePrev).bind
          (fun t' => perform_text_action t' (.SameCasePrev false)) =
        perform_text_action [' ', 'a', 'b'] (.SameCasePrev false) :=
  ⟨by decide,
    same_case_ordering_amended.2.2.1 ['N', 'a'] (by decide),
    by decide,
    same_case_ordering_amended.2.2.2 [' ', 'a', 'b'] (by decide)⟩

/-! #### Undo (C3) -/

theorem undoLoop_eq_undoSpec_aux (ortho : Str → Str → Str) (d : Dictionary)
    (old_t : List Translation) (sa : Bool) :
    ∀ n (ps : List Stroke), ps.length ≤ n →
      undoLoop ortho d old_t sa ps = undoSpec ortho d old_t sa ps := by
  intro n
  induction n with
  | zero =>
    intro ps hl
    have h0 : ps = [] := List.length_eq_zero.mp (Nat.le_zero.mp hl)
    subst h0
    simp [undoLoop, undoSpec]
  | succ n ih =>
    intro ps hl
    match ps with
    | [] => simp [undoLoop, undoSpec]
    | x :: xs =>
      have hdl : (x :: xs).dropLast = (x :: xs).take xs.length := by
        rw [List.dropLast_eq_take]
        rfl
      simp only [undoLoop, hdl]
      simp only [undoSpec, List.length_cons]
      rw [List.range_succ_eq_map, List.findSome?_cons]
      simp only [Nat.add_sub_cancel, Nat.sub_zero]
      by_cases hd : translation_diff ortho old_t
          (dictTranslate d (List.take xs.length (x :: xs))) sa ≠ [Command.NoOp]
      · rw [if_pos hd, if_pos hd]
      · rw [if_neg hd, if_neg hd]
        rw [List.findSome?_map]
        have hlen2 : (List.take xs.length (x :: xs)).length ≤ n := by
          rw [List.length_take]
          simp only [List.length_cons] at hl
          omega
        rw [ih (List.take xs.length (x :: xs)) hlen2]
        simp only [undoSpec, List.length_take, List.length_cons,
          min_eq_left (Nat.le_succ xs.length)]
        congr 1
        congr 1
        funext j
        simp only [Function.comp_apply]
        rw [List.take_take, min_eq_left (by omega),
          show xs.length - Nat.succ j = xs.length - 1 - j from by omega]

/-- C3: `undo` removes strokes one at a time from the end of `prev_strokes`,
after each removal re-translating the shortened history and diffing its
rendering against that of the original full history; it returns the first
diff that is not `[NoOp]` (leaving the history at that point), and returns
exactly `[NoOp]` when the history empties without a visible change. -/
theorem undo_first_visible_diff (ortho : Str → Str → Str)
    (t : StandardTranslator) :
    (undo ortho t).1 =
        (undoSpec ortho t.dict (dictTranslate t.dict t.prev_strokes)
          t.space_after t.prev_strokes).1 ∧
      (undo ortho t).2.prev_strokes =
        (undoSpec ortho t.dict (dictTranslate t.dict t.prev_strokes)
          t.space_after t.prev_strokes).2 := by
  unfold undo
  rw [undoLoop_eq_undoSpec_aux ortho t.dict _ t.space_after
    t.prev_strokes.length t.prev_strokes le_rfl]
  exact ⟨rfl, rfl⟩

end Plojo
